import Mathlib

/-!
Verification of the conda-env-tracker history/reconciliation core.

This file gives a shallow embedding of the data model and the operations of
the repository (Package equality, the history/revisions structures, the
history-file export/parse functions, diff computation, package validation,
and the pull/push reconciliation decisions) and proves or refutes the frozen
claims about them.

Python dictionaries are modelled as association lists over `String` keys
(`AList`); the model is faithful on the domain of dictionaries, whose keys
are unique, and well-formedness hypotheses state that uniqueness where a
theorem needs it.
-/

deriving instance DecidableEq for Except

namespace CondaEnvTracker

/-- Association list over string keys, modelling a Python `dict`
(insertion ordered, unique keys). -/
abbrev AList (α : Type) := List (String × α)

/-- `d[k]` lookup returning the first binding of `k`. -/
def lookupA {α : Type} (k : String) : AList α → Option α
  | [] => none
  | kv :: rest => if kv.1 = k then some kv.2 else lookupA k rest

/-- `d[k] = v` assignment: replace the first binding of `k` in place,
or append a new binding at the end (Python dict insertion order). -/
def upsertA {α : Type} (d : AList α) (k : String) (v : α) : AList α :=
  match d with
  | [] => [(k, v)]
  | kv :: rest => if kv.1 = k then (k, v) :: rest else kv :: upsertA rest k v

/-- `d.pop(k, None)`: drop the first binding of `k`. -/
def popA {α : Type} (d : AList α) (k : String) : AList α :=
  match d with
  | [] => []
  | kv :: rest => if kv.1 = k then rest else kv :: popA rest k

/-- Python `dict.__eq__` (on unique-key dictionaries): same size and every
key of the left dict is bound in the right dict to a value equal (by `veq`,
with the left value as the left operand) to the left value. -/
def dictEqBy {α : Type} (veq : α → α → Bool) (d1 d2 : AList α) : Bool :=
  d1.length == d2.length &&
    d1.all (fun kv =>
      match lookupA kv.1 d2 with
      | some w => veq kv.2 w
      | none => false)

/-! ## packages.py: Package -/

/-- `conda_env_tracker.packages.Package` (fields of `__init__`). -/
structure Package where
  name : String
  spec : String
  version : Option String
  build : Option String
deriving DecidableEq

/-- Python truthiness of an optional string attribute
(`None` and `""` are falsy). -/
def truthyS : Option String → Bool
  | none => false
  | some s => !(s == "")

/-- `Package.__eq__`: skips the version (build) comparison when the left
operand's version (build) is falsy. -/
def pkgEq (p other : Package) : Bool :=
  if truthyS p.version && !(p.version == other.version) then false
  else if truthyS p.build && !(p.build == other.build) then false
  else p.name == other.name && p.spec == other.spec

/-- A character of the regex class `[!<=>]` used by `Package.separate_spec`. -/
def isOpChar (c : Char) : Bool := c == '!' || c == '<' || c == '=' || c == '>'

/-- Split a character list at the first comparison-operator character:
returns the prefix before it and the suffix starting with it. -/
def takeUntilOp : List Char → List Char × List Char
  | [] => ([], [])
  | c :: cs =>
    if isOpChar c then ([], c :: cs)
    else
      let r := takeUntilOp cs
      (c :: r.1, r.2)

/-- Drop the leading maximal run of comparison-operator characters. -/
def dropOps : List Char → List Char
  | [] => []
  | c :: cs => if isOpChar c then dropOps cs else c :: cs

/-- `Package.separate_spec`: `re.split("[!<=>]+", spec, maxsplit=1)`. -/
def separateSpec (s : String) : List String :=
  let r := takeUntilOp s.toList
  if r.2.isEmpty then [s] else [String.mk r.1, String.mk (dropOps r.2)]

/-- `Package.from_spec`. -/
def fromSpec (s : String) : Package :=
  Package.mk ((separateSpec s).headD "") s none none

/-- `Package.spec_is_name`. -/
def specIsName (p : Package) : Bool := p.spec == p.name

/-- `Package.create_spec(separator, ignore_build)`; `none` models the
`TypeError` raised when joining with a `None` version. -/
def createSpec (p : Package) (separator : String) (ignoreBuild : Bool) : Option String :=
  if !ignoreBuild && truthyS p.build then
    match p.version, p.build with
    | some v, some b => some (p.name ++ separator ++ v ++ separator ++ b)
    | _, _ => none
  else
    match p.version with
    | some v => some (p.name ++ separator ++ v)
    | none => none

/-! ## utils.py: is_ordered_subset -/

/-- `element in set_iterator`: scan for the first occurrence of `element`,
consuming the iterator up to and including it. -/
def findConsume {α : Type} [DecidableEq α] (element : α) : List α → Option (List α)
  | [] => none
  | x :: xs => if x = element then some xs else findConsume element xs

/-- `conda_env_tracker.utils.is_ordered_subset(set, subset)`: every element
of `subset` is found in (the rest of) an iterator over `set`, in order. -/
def isOrderedSubset {α : Type} [DecidableEq α] (set : List α) (subset : List α) : Bool :=
  match subset with
  | [] => true
  | element :: rest =>
    match findConsume element set with
    | none => false
    | some remaining => isOrderedSubset remaining rest

/-! ## history/packages.py: PackageRevision -/

instance : DecidableEq (AList Package) := inferInstance

instance : DecidableEq (AList (AList Package)) := inferInstance

instance : DecidableEq (AList (AList (AList Package))) := inferInstance

instance : DecidableEq (AList (List String)) := inferInstance

instance : DecidableEq (AList (AList (List String))) := inferInstance

/-- `PackageRevision`: mapping source -> (mapping package name -> Package). -/
abbrev PackageRevision := AList (AList Package)

/-- `PackageRevision.separators`. -/
def separators (source : String) : Option String :=
  if source = "conda" then some "="
  else if source = "pip" then some "=="
  else if source = "r" then some "="
  else none

/-- `PackageRevision._update_packages`: `existing[package.name] = package`
for each new package. -/
def updatePackagesInner (existing : AList Package) : List Package → AList Package
  | [] => existing
  | p :: rest => updatePackagesInner (upsertA existing p.name p) rest

/-- `PackageRevision.update_packages`. -/
def updatePackages (pr : PackageRevision) (packages : List Package) (source : String) :
    PackageRevision :=
  let existing := (lookupA source pr).getD []
  upsertA pr source (updatePackagesInner existing packages)

/-- `PackageRevision.parse`: `"*"` entries come back through
`Package.from_spec(name)`, others as `Package(name, spec)`. -/
def prParseAux (inst : PackageRevision) : AList (AList String) → PackageRevision
  | [] => inst
  | e :: rest =>
    let sourcePackages := e.2.map (fun ns =>
      if ns.2 == "*" then fromSpec ns.1 else Package.mk ns.1 ns.2 none none)
    prParseAux (updatePackages inst sourcePackages e.1) rest

/-- `PackageRevision.parse` (entry point). -/
def prParse (historySection : AList (AList String)) : PackageRevision :=
  prParseAux [] historySection

/-- `PackageRevision.export`: spec-is-name entries export as `"*"`; a source
whose package map is empty is skipped entirely. -/
def prExportAux (output : AList (AList String)) : PackageRevision → AList (AList String)
  | [] => output
  | e :: rest =>
    let sourcePackages := e.2.map (fun ni =>
      (ni.1, if specIsName ni.2 then "*" else ni.2.spec))
    prExportAux (if sourcePackages.isEmpty then output else upsertA output e.1 sourcePackages)
      rest

/-- `PackageRevision.export` (entry point). -/
def prExport (pr : PackageRevision) : AList (AList String) :=
  prExportAux [] pr

/-! ## history/diff.py: Diff -/

/-- `Diff`: mapping source -> (mapping section name -> mapping name -> Package). -/
abbrev DiffT := AList (AList (AList Package))

/-- `Diff._get_dependencies_diff`: returns `(updated, removed)`. -/
def getDependenciesDiff (currentDependencies currentPackages : AList Package) :
    AList Package × AList Package :=
  currentPackages.foldl
    (fun acc entry =>
      match lookupA entry.1 currentDependencies with
      | none => (acc.1, upsertA acc.2 entry.1 entry.2)
      | some dependency =>
        if !(entry.2.version == dependency.version) then
          (upsertA acc.1 entry.1
            (Package.mk entry.2.name entry.2.spec dependency.version dependency.build),
            acc.2)
        else acc)
    (([], []) : AList Package × AList Package)

/-- `Diff.compute`. -/
def diffCompute (dependencies : AList (AList Package)) (packages : PackageRevision)
    (upsertPackages : Option (List Package)) (source : String) : DiffT :=
  let sourcePackages := (lookupA source packages).getD []
  let sourceDependencies := (lookupA source dependencies).getD []
  let upsertInit : AList Package :=
    match upsertPackages with
    | some ups => ups.foldl (fun d p => upsertA d p.name p) []
    | none => []
  let updateRemove := getDependenciesDiff sourceDependencies sourcePackages
  let upsert := updateRemove.1.foldl
    (fun u kv => if (lookupA kv.1 u).isSome then u else upsertA u kv.1 kv.2) upsertInit
  let sections : AList (AList Package) := []
  let sections := if upsert.isEmpty then sections else upsertA sections "upsert" upsert
  let sections := if updateRemove.2.isEmpty then sections
    else upsertA sections "remove" updateRemove.2
  upsertA [] source sections

/-- One exported diff section: `remove` sections and the `r` source export
package names; other sections export `create_spec(separator, ignore_build=True)`.
`none` models an exception escaping `Diff.export`. -/
def diffExportSectionSpecs (source sectionName : String) : AList Package → Option (List String)
  | [] => some []
  | np :: rest =>
    let specOpt : Option String :=
      if sectionName = "remove" || source = "r" then some np.1
      else
        match separators source with
        | none => none
        | some sep => createSpec np.2 sep true
    match specOpt, diffExportSectionSpecs source sectionName rest with
    | some spec, some specs => some (spec :: specs)
    | _, _ => none

/-- `Diff.export`, per-source sections. -/
def diffExportSections (source : String) : AList (AList Package) → Option (AList (List String))
  | [] => some []
  | sec :: rest =>
    match diffExportSectionSpecs source sec.1 sec.2, diffExportSections source rest with
    | some specs, some sections => some ((sec.1, specs) :: sections)
    | _, _ => none

/-- `Diff.export`. -/
def diffExport : DiffT → Option (AList (AList (List String)))
  | [] => some []
  | entry :: rest =>
    match diffExportSections entry.1 entry.2, diffExport rest with
    | some sections, some output => some ((entry.1, sections) :: output)
    | _, _ => none

/-- One parsed diff spec: the `remove`/`r` branch goes through
`Package.from_spec`; otherwise `separate_spec` must yield a name and a
version (`none` models the unpacking `ValueError`). -/
def diffParseSpec (source sectionName spec : String) : Option (String × Package) :=
  if sectionName = "remove" || source = "r" then some (spec, fromSpec spec)
  else
    match separateSpec spec with
    | [packageName, version] =>
      some (packageName, Package.mk packageName packageName (some version) none)
    | _ => none

/-- `Diff.parse`, one section. -/
def diffParseSpecs (source sectionName : String) : List String → Option (AList Package)
  | [] => some []
  | spec :: rest =>
    match diffParseSpec source sectionName spec, diffParseSpecs source sectionName rest with
    | some entry, some entries => some (entry :: entries)
    | _, _ => none

/-- `Diff.parse`, per-source sections. -/
def diffParseSections (source : String) : AList (List String) → Option (AList (AList Package))
  | [] => some []
  | sec :: rest =>
    match diffParseSpecs source sec.1 sec.2, diffParseSections source rest with
    | some pkgs, some sections => some ((sec.1, pkgs) :: sections)
    | _, _ => none

/-- `Diff.parse`. -/
def diffParse : AList (AList (List String)) → Option DiffT
  | [] => some []
  | entry :: rest =>
    match diffParseSections entry.1 entry.2, diffParse rest with
    | some sections, some output => some ((entry.1, sections) :: output)
    | _, _ => none

/-! ## history/revisions.py and history/history.py -/

/-- One debug record (a plain string-to-string dictionary). -/
abbrev DebugEntry := AList String

/-- `Revisions`: the five parallel arrays. -/
structure Revisions where
  logs : List String
  actions : List String
  packages : List PackageRevision
  diffs : List DiffT
  debug : List DebugEntry
deriving DecidableEq

/-- Elementwise list equality by a Boolean comparator (Python list `==`
with the left operand's elements on the left). -/
def listEqBy {α : Type} (eq : α → α → Bool) : List α → List α → Bool
  | [], [] => true
  | a :: as_, b :: bs => eq a b && listEqBy eq as_ bs
  | _, _ => false

/-- `PackageRevision` equality as Python compares the nested dicts. -/
def prEq (p1 p2 : PackageRevision) : Bool :=
  dictEqBy (dictEqBy pkgEq) p1 p2

/-- Equality of debug records (plain dict equality). -/
def debugEq (d1 d2 : DebugEntry) : Bool :=
  dictEqBy (fun a b => a == b) d1 d2

/-- `Revisions.__eq__`: compares logs, actions, packages and debug;
the `diffs` field is never inspected. -/
def revEq (r1 r2 : Revisions) : Bool :=
  r1.logs == r2.logs && r1.actions == r2.actions
    && listEqBy prEq r1.packages r2.packages
    && listEqBy debugEq r1.debug r2.debug

/-- `History`: name, id, channels, current packages, revisions.
The `logs`/`actions`/`debug` attributes alias into `revisions`. -/
structure History where
  name : String
  id : String
  channels : List String
  packages : PackageRevision
  revisions : Revisions
deriving DecidableEq

/-- `History.actions` (alias of `revisions.actions`). -/
def History.actions (h : History) : List String := h.revisions.actions

/-- `History.logs` (alias of `revisions.logs`). -/
def History.logs (h : History) : List String := h.revisions.logs

/-- `History.__eq__`: name, id, channels, revisions, packages. -/
def histEq (h1 h2 : History) : Bool :=
  h1.name == h2.name && h1.id == h2.id && h1.channels == h2.channels
    && revEq h1.revisions h2.revisions && prEq h1.packages h2.packages

/-- One row of the exported `revisions` list of the history file. -/
structure RevisionRow where
  packages : AList (AList String)
  diff : AList (AList (List String))
  log : String
  action : String
  debug : DebugEntry
deriving DecidableEq

/-- `Revisions.export`: `zip` over the five parallel arrays (truncating at
the shortest), each row exporting its packages and diff. -/
def revExportRows :
    List String → List String → List PackageRevision → List DiffT → List DebugEntry →
      Option (List RevisionRow)
  | log :: logs, action :: actions, packages :: packagesRest, diff :: diffs,
      debugEntry :: debugRest =>
    match diffExport diff, revExportRows logs actions packagesRest diffs debugRest with
    | some diffDoc, some rows =>
      some (RevisionRow.mk (prExport packages) diffDoc log action debugEntry :: rows)
    | _, _ => none
  | _, _, _, _, _ => some []

/-- `Revisions.export` (entry point). -/
def revExport (r : Revisions) : Option (List RevisionRow) :=
  revExportRows r.logs r.actions r.packages r.diffs r.debug

/-- `Revisions.parse`: one loop appending to the five arrays; a diff that
fails to parse aborts the whole parse. -/
def revParseRows : List RevisionRow →
    Option (List String × List String × List PackageRevision × List DiffT × List DebugEntry)
  | [] => some ([], [], [], [], [])
  | row :: rest =>
    match diffParse row.diff, revParseRows rest with
    | some d, some t =>
      some (row.log :: t.1, row.action :: t.2.1, prParse row.packages :: t.2.2.1,
        d :: t.2.2.2.1, row.debug :: t.2.2.2.2)
    | _, _ => none

/-- `Revisions.parse` (entry point). -/
def revParse (rows : List RevisionRow) : Option Revisions :=
  (revParseRows rows).map (fun t => Revisions.mk t.1 t.2.1 t.2.2.1 t.2.2.2.1 t.2.2.2.2)

/-- The exported history document (the `history.yaml` content). -/
structure HistoryDoc where
  name : String
  id : String
  historyFileVersion : String
  channels : List String
  packages : AList (AList String)
  revisions : List RevisionRow
deriving DecidableEq

/-- `History.export`. -/
def historyExport (h : History) : Option HistoryDoc :=
  (revExport h.revisions).map (fun revs =>
    HistoryDoc.mk h.name h.id "1.0" h.channels (prExport h.packages) revs)

/-- `History.parse` (the `Channels` constructor on a list is the identity). -/
def historyParse (doc : HistoryDoc) : Option History :=
  (revParse doc.revisions).map (fun revs =>
    History.mk doc.name doc.id doc.channels (prParse doc.packages) revs)

/-! ## pull.py: the pull decision tree

Interactive prompts are modelled as Boolean inputs (`promptNewId`,
`promptDifferentOrder`, `promptMerge` are the answers the user would give to
the three distinct prompts); `yes` is the non-interactive flag. Errors are
raised before any local mutation, so an error outcome leaves local
untouched; the `replaced` outcome carries the history that
`replace_local_with_remote` installs as the new local history. -/

/-- The errors `pull` can raise from its decision tree. -/
inductive PullError where
  | creationError : PullError
  | differentOrderDeclined : PullError
  | conflictingDeclined : PullError
deriving DecidableEq

/-- The non-error outcomes of `pull`. -/
inductive PullOutcome where
  | nothingToPull : PullOutcome
  | replaced : History → PullOutcome
  | merged : PullOutcome
deriving DecidableEq

/-- `pull._no_new_actions_in_remote`:
`is_ordered_subset(set=local.actions, subset=remote.actions)`. -/
def noNewActionsInRemote (localHistory remoteHistory : History) : Bool :=
  isOrderedSubset localHistory.actions remoteHistory.actions

/-- `pull._no_new_actions_in_local`:
`is_ordered_subset(set=remote.actions, subset=local.actions)`. -/
def noNewActionsInLocal (localHistory remoteHistory : History) : Bool :=
  isOrderedSubset remoteHistory.actions localHistory.actions

/-- `pull._actions_in_different_order`:
`set(remote.actions).issubset(local.actions)`. -/
def actionsInDifferentOrder (localHistory remoteHistory : History) : Bool :=
  remoteHistory.actions.all (fun action => localHistory.actions.contains action)

/-- `pull._nothing_to_pull`. -/
def nothingToPull (localHistory remoteHistory : Option History) : Bool :=
  match remoteHistory with
  | none => true
  | some rh =>
    match localHistory with
    | some lh => noNewActionsInRemote lh rh
    | none => false

/-- `pull._create_env_with_new_id`: `Except.ok true` means local is to be
replaced by remote; declining the prompt raises the creation error. -/
def createEnvWithNewId (localHistory remoteHistory : Option History)
    (yes promptNewId : Bool) : Except PullError Bool :=
  match localHistory, remoteHistory with
  | some lh, some rh =>
    if lh.id ≠ rh.id then
      if yes || promptNewId then Except.ok true
      else Except.error PullError.creationError
    else Except.ok false
  | _, _ => Except.ok false

/-- `pull._local_needs_update` (only called when a remote history exists). -/
def localNeedsUpdate (localHistory : Option History) (remoteHistory : History)
    (yes promptDifferentOrder : Bool) : Except PullError Bool :=
  match localHistory with
  | none => Except.ok true
  | some lh =>
    if noNewActionsInLocal lh remoteHistory then Except.ok true
    else if actionsInDifferentOrder lh remoteHistory then
      if !yes && !promptDifferentOrder then Except.error PullError.differentOrderDeclined
      else Except.ok true
    else Except.ok false

/-- `pull.pull`: the decision tree, in evaluation order. When the remote
history is absent, `_create_env_with_new_id` is false and
`_nothing_to_pull` is true, so pull is a no-op; that case is hoisted to
keep the remote history at hand for the `replaced` outcome. -/
def pullDecision (localHistory remoteHistory : Option History)
    (yes promptNewId promptDifferentOrder promptMerge : Bool) :
    Except PullError PullOutcome :=
  match remoteHistory with
  | none => Except.ok PullOutcome.nothingToPull
  | some rh =>
    match createEnvWithNewId localHistory (some rh) yes promptNewId with
    | Except.error e => Except.error e
    | Except.ok true => Except.ok (PullOutcome.replaced rh)
    | Except.ok false =>
      if nothingToPull localHistory (some rh) then Except.ok PullOutcome.nothingToPull
      else
        match localNeedsUpdate localHistory rh yes promptDifferentOrder with
        | Except.error e => Except.error e
        | Except.ok true => Except.ok (PullOutcome.replaced rh)
        | Except.ok false =>
          if !yes && !promptMerge then Except.error PullError.conflictingDeclined
          else Except.ok PullOutcome.merged

/-! ## push.py -/

/-- The error `push` raises on a non-fast-forward push. -/
inductive PushError where
  | pushRejected : PushError
deriving DecidableEq

/-- The non-error outcomes of `push`: nothing to push, or local files
copied onto the remote. -/
inductive PushOutcome where
  | noop : PushOutcome
  | copied : PushOutcome
deriving DecidableEq

/-- `push.push`: no-op when remote equals local (`None == local` is false);
reject when a remote history exists whose actions or logs are not an
ordered subset of local's; otherwise copy local onto remote. -/
def pushDecision (remoteHistory : Option History) (localHistory : History) :
    Except PushError PushOutcome :=
  if (match remoteHistory with
      | some rh => histEq rh localHistory
      | none => false) then
    Except.ok PushOutcome.noop
  else
    match remoteHistory with
    | some rh =>
      if !(isOrderedSubset localHistory.actions rh.actions)
          || !(isOrderedSubset localHistory.logs rh.logs) then
        Except.error PushError.pushRejected
      else Except.ok PushOutcome.copied
    | none => Except.ok PushOutcome.copied

/-! ## env.py: Environment.validate_packages -/

/-- The install error raised when a package of the just-performed operation
is missing from the live dependencies. -/
inductive InstallError where
  | notInstalled : String → InstallError
deriving DecidableEq

/-- The names recorded in the history for `source` that are absent from the
live dependency snapshot. -/
def validateRemovedNames (historyPackages dependencies : AList Package) : List String :=
  (historyPackages.map (fun kv => kv.1)).filter
    (fun package => (lookupA package dependencies).isNone)

/-- The loop over the removed names: raise for a package of the operation
just performed, otherwise warn (collected in order) and pop it from the
history's packages. -/
def processRemoved (installedNames : List String) :
    List String → AList Package → List String →
      Except InstallError (AList Package × List String)
  | [], packages, warnings => Except.ok (packages, warnings)
  | package :: rest, packages, warnings =>
    if installedNames.contains package then
      Except.error (InstallError.notInstalled package)
    else processRemoved installedNames rest (popA packages package) (warnings ++ [package])

/-- The `installed_names` set of `validate_packages`: the names of the
packages of the operation just performed (empty when none given). -/
def installedNamesOf (installedPackages : Option (List Package)) : List String :=
  match installedPackages with
  | some pkgs => pkgs.map (fun p => p.name)
  | none => []

/-- `Environment.validate_packages` for one source: `historyPackages` is
`self.history.packages[source]`, `dependencies` is
`self.dependencies[source]`, `installedPackages` the packages of the
operation just performed. Returns the surviving history packages and the
warned (demoted) names. -/
def validatePackages (historyPackages dependencies : AList Package)
    (installedPackages : Option (List Package)) :
    Except InstallError (AList Package × List String) :=
  processRemoved (installedNamesOf installedPackages)
    (validateRemovedNames historyPackages dependencies) historyPackages []

/-! ## The greedy iterator scan decides the subsequence relation -/

theorem findConsume_eq_some {α : Type} [DecidableEq α] {element : α} :
    ∀ {s s0 : List α}, findConsume element s = some s0 →
      ∃ pre, s = pre ++ element :: s0 ∧ element ∉ pre := by
  intro s
  induction s with
  | nil => intro s0 h; simp [findConsume] at h
  | cons x xs ih =>
    intro s0 h
    by_cases hx : x = element
    · subst hx
      simp [findConsume] at h
      exact ⟨[], by simp [h], by simp⟩
    · rw [findConsume, if_neg hx] at h
      obtain ⟨pre, heq, hmem⟩ := ih h
      refine ⟨x :: pre, by simp [heq], ?_⟩
      simp only [List.mem_cons, not_or]
      exact ⟨fun he => hx he.symm, hmem⟩

theorem findConsume_eq_none {α : Type} [DecidableEq α] {element : α} :
    ∀ {s : List α}, findConsume element s = none → element ∉ s := by
  intro s
  induction s with
  | nil => intro _; simp
  | cons x xs ih =>
    intro h
    by_cases hx : x = element
    · subst hx; simp [findConsume] at h
    · rw [findConsume, if_neg hx] at h
      simp only [List.mem_cons, not_or]
      exact ⟨fun he => hx he.symm, ih h⟩

theorem sublist_of_cons_append {α : Type} {e : α} :
    ∀ (pre : List α) {rest s0 : List α}, e ∉ pre →
      List.Sublist (e :: rest) (pre ++ e :: s0) → List.Sublist rest s0 := by
  intro pre
  induction pre with
  | nil =>
    intro rest s0 _ h
    exact List.cons_sublist_cons.mp h
  | cons p ps ih =>
    intro rest s0 hmem h
    rcases List.sublist_cons_iff.mp h with h2 | ⟨r, hr, _⟩
    · exact ih (fun hx => hmem (List.mem_cons_of_mem p hx)) h2
    · have he : e = p := (List.cons.injEq e rest p r ▸ hr).1
      exact absurd (he ▸ List.mem_cons_self p ps) hmem

theorem isOrderedSubset_iff_sublist {α : Type} [DecidableEq α] :
    ∀ (sub s : List α), isOrderedSubset s sub = true ↔ sub.Sublist s := by
  intro sub
  induction sub with
  | nil => intro s; simp [isOrderedSubset]
  | cons e rest ih =>
    intro s
    constructor
    · intro h
      rw [isOrderedSubset] at h
      cases hf : findConsume e s with
      | none => rw [hf] at h; exact absurd h (by simp)
      | some s0 =>
        rw [hf] at h
        obtain ⟨pre, hs, _⟩ := findConsume_eq_some hf
        subst hs
        exact ((List.cons_sublist_cons.mpr ((ih s0).mp h)).trans
          (List.sublist_append_right pre (e :: s0)))
    · intro h
      have he : e ∈ s := h.subset (List.mem_cons_self e rest)
      rw [isOrderedSubset]
      cases hf : findConsume e s with
      | none => exact absurd he (findConsume_eq_none hf)
      | some s0 =>
        obtain ⟨pre, hs, hpre⟩ := findConsume_eq_some hf
        subst hs
        exact (ih s0).mpr (sublist_of_cons_append pre hpre h)

/-- A history with the given id whose revisions carry the given action
list (logs mirroring actions), as used for concrete pull scenarios. -/
def historyWithActions (id : String) (actions : List String) : History :=
  History.mk "env" id [] [] (Revisions.mk actions actions [] [] [])

/-- C2: `is_ordered_subset(superset, subset)` is true iff every element of
`subset` appears in `superset` in the same relative order (i.e. `subset` is
a subsequence of `superset`); in particular, for distinct `a`, `b`, `c`:
`is_ordered_subset([a,b,c], [a,c])` is true, `is_ordered_subset([a,b,c],
[c,a])` is false, and `is_ordered_subset([a,b], [a,b,c])` is false. -/
theorem claim_c2_is_ordered_subset :
    (∀ (s sub : List String), isOrderedSubset s sub = true ↔ sub.Sublist s)
    ∧ (∀ a b c : String, a ≠ b → a ≠ c → b ≠ c →
        isOrderedSubset [a, b, c] [a, c] = true
        ∧ isOrderedSubset [a, b, c] [c, a] = false
        ∧ isOrderedSubset [a, b] [a, b, c] = false) := by
  constructor
  · intro s sub
    exact isOrderedSubset_iff_sublist sub s
  · intro a b c hab hac hbc
    refine ⟨?_, ?_, ?_⟩ <;> simp [isOrderedSubset, findConsume, hab, hac, hbc]

/-- Witness for C2 at the concrete distinct strings `"a"`, `"b"`, `"c"`. -/
theorem claim_c2_witness :
    isOrderedSubset ["a", "b", "c"] ["a", "c"] = true
    ∧ isOrderedSubset ["a", "b", "c"] ["c", "a"] = false
    ∧ isOrderedSubset ["a", "b"] ["a", "b", "c"] = false :=
  claim_c2_is_ordered_subset.2 "a" "b" "c" (by decide) (by decide) (by decide)

/-- C1 counterexample: local and remote share an id, local's actions are
`[a, b]` and remote's are `[a]`; the pull is a no-op (the nothing-to-pull
branch is taken) although local's actions are not an ordered subset of
remote's, so the claimed two-sided condition is violated. -/
theorem claim_c1_counterexample :
    pullDecision (some (historyWithActions "i" ["a", "b"]))
        (some (historyWithActions "i" ["a"])) true true true true
      = Except.ok PullOutcome.nothingToPull
    ∧ isOrderedSubset (historyWithActions "i" ["a"]).actions
        (historyWithActions "i" ["a", "b"]).actions = false := by
  decide

/-- C1 (amended): for a pull where local and remote histories exist with
the same id, the pull is a no-op exactly when remote's action sequence is
an ordered subset of local's action sequence (no new actions in remote);
the claimed extra condition that local's actions also be an ordered subset
of remote's is not required by the code. -/
theorem claim_c1_nothing_to_pull (lh rh : History) (yes p1 p2 p3 : Bool)
    (hid : lh.id = rh.id) :
    pullDecision (some lh) (some rh) yes p1 p2 p3 = Except.ok PullOutcome.nothingToPull
      ↔ isOrderedSubset lh.actions rh.actions = true := by
  have hc : createEnvWithNewId (some lh) (some rh) yes p1 = Except.ok false := by
    simp [createEnvWithNewId, hid]
  cases h : isOrderedSubset lh.actions rh.actions with
  | true =>
    simp [pullDecision, hc, nothingToPull, noNewActionsInRemote, h]
  | false =>
    simp only [pullDecision, hc, nothingToPull, noNewActionsInRemote, h, Bool.false_eq_true,
      if_false]
    cases hlu : localNeedsUpdate (some lh) rh yes p2 with
    | error e => simp
    | ok b =>
      cases b with
      | true => simp
      | false =>
        by_cases hm : (!yes && !p3) = true <;> simp [hm]

/-- Witness for the amended C1 at equal concrete histories. -/
theorem claim_c1_witness :
    (pullDecision (some (historyWithActions "j" ["x"])) (some (historyWithActions "j" ["x"]))
        false false false false = Except.ok PullOutcome.nothingToPull)
      ↔ isOrderedSubset (historyWithActions "j" ["x"]).actions
          (historyWithActions "j" ["x"]).actions = true :=
  claim_c1_nothing_to_pull (historyWithActions "j" ["x"]) (historyWithActions "j" ["x"])
    false false false false rfl

/-- C3 counterexample: local actions `[a, b, c]`, remote actions `[b, a]`,
same id; the identity and nothing-to-pull checks do not apply, neither
action sequence is an ordered subset of the other, and the
overwrite-local-with-remote branch is taken although the two action sets
are not equal as unordered sets (`c` is only in local). -/
theorem claim_c3_counterexample :
    pullDecision (some (historyWithActions "i" ["a", "b", "c"]))
        (some (historyWithActions "i" ["b", "a"])) true true true true
      = Except.ok (PullOutcome.replaced (historyWithActions "i" ["b", "a"]))
    ∧ isOrderedSubset (historyWithActions "i" ["a", "b", "c"]).actions
        (historyWithActions "i" ["b", "a"]).actions = false
    ∧ isOrderedSubset (historyWithActions "i" ["b", "a"]).actions
        (historyWithActions "i" ["a", "b", "c"]).actions = false
    ∧ "c" ∈ (historyWithActions "i" ["a", "b", "c"]).actions
    ∧ "c" ∉ (historyWithActions "i" ["b", "a"]).actions := by
  decide

/-- C3 (amended): in the pull decision tree, when the identity check and
the nothing-to-pull check have not applied and neither history's actions
are an ordered subset of the other's in order, the
overwrite-local-with-remote branch for reordered histories is taken
precisely when remote's action set is an unordered subset of local's
action set (not necessarily equal to it); with consent the local history
is replaced by remote, and declining the prompt raises the
different-order pull error without changing local. -/
theorem claim_c3_reordered (lh rh : History) (pNew pMerge : Bool)
    (hid : lh.id = rh.id)
    (h1 : isOrderedSubset lh.actions rh.actions = false)
    (h2 : isOrderedSubset rh.actions lh.actions = false) :
    (∀ yes pDiff, (yes || pDiff) = true →
      (pullDecision (some lh) (some rh) yes pNew pDiff pMerge
          = Except.ok (PullOutcome.replaced rh)
        ↔ actionsInDifferentOrder lh rh = true))
    ∧ (pullDecision (some lh) (some rh) false pNew false pMerge
          = Except.error PullError.differentOrderDeclined
        ↔ actionsInDifferentOrder lh rh = true) := by
  have hc : ∀ yes pN, createEnvWithNewId (some lh) (some rh) yes pN = Except.ok false := by
    intro yes pN
    simp [createEnvWithNewId, hid]
  constructor
  · intro yes pDiff hyp
    cases hd : actionsInDifferentOrder lh rh with
    | true =>
      have hlu : localNeedsUpdate (some lh) rh yes pDiff = Except.ok true := by
        simp only [localNeedsUpdate, noNewActionsInLocal, h2, Bool.false_eq_true, if_false, hd,
          if_true]
        cases yes with
        | true => simp
        | false =>
          cases pDiff with
          | true => simp
          | false => simp at hyp
      simp [pullDecision, hc, nothingToPull, noNewActionsInRemote, h1, hlu]
    | false =>
      have hlu : localNeedsUpdate (some lh) rh yes pDiff = Except.ok false := by
        simp [localNeedsUpdate, noNewActionsInLocal, h2, hd]
      simp only [pullDecision, hc, nothingToPull, noNewActionsInRemote, h1,
        Bool.false_eq_true, if_false, hlu]
      by_cases hm : (!yes && !pMerge) = true <;> simp [hm]
  · cases hd : actionsInDifferentOrder lh rh with
    | true =>
      have hlu : localNeedsUpdate (some lh) rh false false
          = Except.error PullError.differentOrderDeclined := by
        simp [localNeedsUpdate, noNewActionsInLocal, h2, hd]
      simp [pullDecision, hc, nothingToPull, noNewActionsInRemote, h1, hlu]
    | false =>
      have hlu : localNeedsUpdate (some lh) rh false false = Except.ok false := by
        simp [localNeedsUpdate, noNewActionsInLocal, h2, hd]
      simp only [pullDecision, hc, nothingToPull, noNewActionsInRemote, h1,
        Bool.false_eq_true, if_false, hlu]
      by_cases hm : pMerge = true <;> simp [hm]

/-- Witness for the amended C3: same action set in a different order. -/
theorem claim_c3_witness :
    (pullDecision (some (historyWithActions "k" ["p", "q"]))
        (some (historyWithActions "k" ["q", "p"])) true false true false
      = Except.ok (PullOutcome.replaced (historyWithActions "k" ["q", "p"])))
      ↔ actionsInDifferentOrder (historyWithActions "k" ["p", "q"])
          (historyWithActions "k" ["q", "p"]) = true :=
  (claim_c3_reordered (historyWithActions "k" ["p", "q"]) (historyWithActions "k" ["q", "p"])
    false false rfl (by decide) (by decide)).1 true true rfl

/-- C4: for a pull where both histories exist and their ids differ (whatever
the action lists), without consent pull raises the creation
(lineage-conflict) error and local is unchanged; with consent (the yes flag
or an affirmative prompt answer) local is replaced wholesale by the remote
history, adopting remote's id and full history. -/
theorem claim_c4_identity_mismatch (lh rh : History) (pDiff pMerge : Bool)
    (hid : lh.id ≠ rh.id) :
    (∀ yes pNew, (yes || pNew) = false →
      pullDecision (some lh) (some rh) yes pNew pDiff pMerge
        = Except.error PullError.creationError)
    ∧ (∀ yes pNew, (yes || pNew) = true →
      pullDecision (some lh) (some rh) yes pNew pDiff pMerge
        = Except.ok (PullOutcome.replaced rh)) := by
  constructor
  · intro yes pNew hyp
    simp [pullDecision, createEnvWithNewId, hid, hyp]
  · intro yes pNew hyp
    simp [pullDecision, createEnvWithNewId, hid, hyp]

/-- Witness for C4 at histories with ids `"A"` and `"B"`. -/
theorem claim_c4_witness :
    pullDecision (some (historyWithActions "A" ["x"])) (some (historyWithActions "B" ["x"]))
        true false false false
      = Except.ok (PullOutcome.replaced (historyWithActions "B" ["x"])) :=
  (claim_c4_identity_mismatch (historyWithActions "A" ["x"]) (historyWithActions "B" ["x"])
    false false (by decide)).2 true false rfl

/-- C5: for a push where a remote history exists and differs from the local
history, push raises the push error exactly when remote's actions are not
an ordered subset of local's actions or remote's logs are not an ordered
subset of local's logs (remote unchanged), and copies local onto remote
exactly otherwise; when remote's history equals local's, push is a no-op. -/
theorem claim_c5_push (rh lh : History) :
    (histEq rh lh = true → pushDecision (some rh) lh = Except.ok PushOutcome.noop)
    ∧ (histEq rh lh = false →
      (pushDecision (some rh) lh = Except.error PushError.pushRejected
        ↔ ¬(isOrderedSubset lh.actions rh.actions = true
            ∧ isOrderedSubset lh.logs rh.logs = true))
      ∧ (pushDecision (some rh) lh = Except.ok PushOutcome.copied
        ↔ (isOrderedSubset lh.actions rh.actions = true
            ∧ isOrderedSubset lh.logs rh.logs = true))) := by
  constructor
  · intro he
    simp [pushDecision, he]
  · intro he
    cases ha : isOrderedSubset lh.actions rh.actions with
    | true =>
      cases hl : isOrderedSubset lh.logs rh.logs with
      | true => simp [pushDecision, he, ha, hl]
      | false => simp [pushDecision, he, ha, hl]
    | false =>
      cases hl : isOrderedSubset lh.logs rh.logs with
      | true => simp [pushDecision, he, ha, hl]
      | false => simp [pushDecision, he, ha, hl]

/-- Witness for C5: remote strictly behind local fast-forwards (copy). -/
theorem claim_c5_witness :
    pushDecision (some (historyWithActions "i" ["a"])) (historyWithActions "i" ["a", "b"])
      = Except.ok PushOutcome.copied :=
  ((claim_c5_push (historyWithActions "i" ["a"]) (historyWithActions "i" ["a", "b"])).2
    (by decide)).2.mpr ⟨by decide, by decide⟩

/-- C9 counterexample: two packages with the same name and spec where only
the left one specifies a version compare unequal (while the swapped
comparison is equal), refuting the claimed two-sided condition and the
claimed symmetry. -/
theorem claim_c9_counterexample :
    pkgEq (Package.mk "a" "a" (some "1") none) (Package.mk "a" "a" none none) = false
    ∧ pkgEq (Package.mk "a" "a" none none) (Package.mk "a" "a" (some "1") none) = true := by
  decide

/-- C9 (amended): `p == q` holds iff `p` and `q` have the same name and the
same spec and, whenever `p` specifies a (truthy) version (respectively
build), `q` has that same version (respectively build). The relation is
not symmetric: a package that does not specify a version equals one with
the same name and spec that does, but not conversely. -/
theorem claim_c9_package_eq (p q : Package) :
    pkgEq p q = true
      ↔ (p.name = q.name ∧ p.spec = q.spec
        ∧ (truthyS p.version = true → p.version = q.version)
        ∧ (truthyS p.build = true → p.build = q.build)) := by
  unfold pkgEq
  by_cases hv : truthyS p.version = true
  · by_cases hveq : p.version = q.version
    · by_cases hb : truthyS p.build = true
      · by_cases hbeq : p.build = q.build
        · simp [hv, hveq, hb, hbeq]
        · simp [hv, hveq, hb, hbeq]
      · have hb2 : truthyS p.build = false := by
          cases h : truthyS p.build
          · rfl
          · exact absurd h hb
        simp [hv, hveq, hb2]
    · simp [hv, hveq]
  · have hv2 : truthyS p.version = false := by
      cases h : truthyS p.version
      · rfl
      · exact absurd h hv
    by_cases hb : truthyS p.build = true
    · by_cases hbeq : p.build = q.build
      · simp [hv2, hb, hbeq]
      · simp [hv2, hb, hbeq]
    · have hb2 : truthyS p.build = false := by
        cases h : truthyS p.build
        · rfl
        · exact absurd h hb
      simp [hv2, hb2]

/-- Witness for the amended C9: a version-free package equals its pinned
counterpart. -/
theorem claim_c9_witness :
    pkgEq (Package.mk "pytest" "pytest" none none)
        (Package.mk "pytest" "pytest" (some "4.0") (some "py36_0")) = true :=
  (claim_c9_package_eq (Package.mk "pytest" "pytest" none none)
    (Package.mk "pytest" "pytest" (some "4.0") (some "py36_0"))).mpr
    ⟨rfl, rfl, by intro h; exact absurd h (by decide), by intro h; exact absurd h (by decide)⟩

/-! ## Diff computation on an unchanged source -/

theorem getDependenciesDiff_nochange (deps : AList Package) :
    ∀ (pkgs : AList Package),
      (∀ kv ∈ pkgs, ∃ q, lookupA kv.1 deps = some q ∧ kv.2.version = q.version) →
      getDependenciesDiff deps pkgs = ([], []) := by
  have aux : ∀ (pkgs : AList Package) (acc : AList Package × AList Package),
      (∀ kv ∈ pkgs, ∃ q, lookupA kv.1 deps = some q ∧ kv.2.version = q.version) →
      pkgs.foldl
        (fun acc entry =>
          match lookupA entry.1 deps with
          | none => (acc.1, upsertA acc.2 entry.1 entry.2)
          | some dependency =>
            if !(entry.2.version == dependency.version) then
              (upsertA acc.1 entry.1
                (Package.mk entry.2.name entry.2.spec dependency.version dependency.build),
                acc.2)
            else acc)
        acc = acc := by
    intro pkgs
    induction pkgs with
    | nil => intro acc _; rfl
    | cons kv rest ih =>
      intro acc h
      obtain ⟨q, hq, hv⟩ := h kv (List.mem_cons_self kv rest)
      have hstep : (match lookupA kv.1 deps with
          | none => (acc.1, upsertA acc.2 kv.1 kv.2)
          | some dependency =>
            if !(kv.2.version == dependency.version) then
              (upsertA acc.1 kv.1
                (Package.mk kv.2.name kv.2.spec dependency.version dependency.build),
                acc.2)
            else acc) = acc := by
        rw [hq]
        simp [hv]
      simp only [List.foldl_cons, hstep]
      exact ih acc (fun kv2 h2 => h kv2 (List.mem_cons_of_mem kv h2))
  intro pkgs h
  exact aux pkgs ([], []) h

/-- C7 counterexample: computing the diff for source `"conda"` with no
explicit upserts and no dependency changes yields the mapping
`conda -> empty`, not the empty mapping: the unchanged source is present
as a key bound to an empty object. -/
theorem claim_c7_counterexample :
    diffCompute [] [] none "conda" = [("conda", [])]
    ∧ diffCompute [] [] none "conda" ≠ ([] : DiffT) := by
  decide

/-- C7 (amended): for every `Diff.compute` call where the given source has
no explicit upsert packages, no package whose resolved version changed and
no package missing from the dependency snapshot, the returned diff maps
the source to an empty section object (`source -> empty`); the source key
itself is always present in the result. -/
theorem claim_c7_diff_compute_no_changes (dependencies : AList (AList Package))
    (packages : PackageRevision) (upsertPackages : Option (List Package)) (source : String)
    (hup : upsertPackages = none ∨ upsertPackages = some [])
    (hnochange : ∀ kv ∈ (lookupA source packages).getD [],
      ∃ q, lookupA kv.1 ((lookupA source dependencies).getD []) = some q
        ∧ kv.2.version = q.version) :
    diffCompute dependencies packages upsertPackages source = [(source, [])] := by
  have hdiff := getDependenciesDiff_nochange ((lookupA source dependencies).getD [])
    ((lookupA source packages).getD []) hnochange
  rcases hup with h | h <;>
    simp [diffCompute, h, getDependenciesDiff] at hdiff ⊢ <;>
    simp [hdiff, upsertA]

/-- Witness for the amended C7 at a one-package source whose version is
unchanged. -/
theorem claim_c7_witness :
    diffCompute [("conda", [("numpy", Package.mk "numpy" "numpy" (some "1.0") none)])]
        [("conda", [("numpy", Package.mk "numpy" "numpy" (some "1.0") none)])] none "conda"
      = [("conda", [])] :=
  claim_c7_diff_compute_no_changes _ _ _ _ (Or.inl rfl)
    (by
      intro kv hkv
      have hkv2 : kv = ("numpy", Package.mk "numpy" "numpy" (some "1.0") none) := by
        simpa [lookupA] using hkv
      subst hkv2
      exact ⟨Package.mk "numpy" "numpy" (some "1.0") none, rfl, rfl⟩)

/-! ## validate_packages: demote or raise -/

theorem processRemoved_ok (inst : List String) :
    ∀ (ms : List String) (pkgs : AList Package) (w : List String),
      (∀ m ∈ ms, inst.contains m = false) →
      processRemoved inst ms pkgs w = Except.ok (ms.foldl popA pkgs, w ++ ms) := by
  intro ms
  induction ms with
  | nil => intro pkgs w _; simp [processRemoved]
  | cons m rest ih =>
    intro pkgs w h
    have hm : inst.contains m = false := h m (List.mem_cons_self m rest)
    rw [processRemoved, if_neg (by rw [hm]; decide)]
    rw [ih (popA pkgs m) (w ++ [m]) (fun x hx => h x (List.mem_cons_of_mem m hx))]
    simp

theorem processRemoved_error (inst : List String) :
    ∀ (ms : List String) (pkgs : AList Package) (w : List String),
      (∃ m ∈ ms, inst.contains m = true) →
      ∃ e, processRemoved inst ms pkgs w = Except.error e := by
  intro ms
  induction ms with
  | nil => intro pkgs w h; simp at h
  | cons m rest ih =>
    intro pkgs w h
    by_cases hm : inst.contains m = true
    · exact ⟨InstallError.notInstalled m, by rw [processRemoved, if_pos hm]⟩
    · have hm2 : inst.contains m = false := by
        cases h2 : inst.contains m
        · rfl
        · exact absurd h2 hm
      rcases h with ⟨x, hx, hcx⟩
      rcases List.mem_cons.mp hx with rfl | hx2
      · exact absurd hcx hm
      · obtain ⟨e, he⟩ := ih (popA pkgs m) (w ++ [m]) ⟨x, hx2, hcx⟩
        exact ⟨e, by rw [processRemoved, if_neg (by rw [hm2]; decide)]; exact he⟩

theorem foldl_popA_of_ne :
    ∀ (ms : List String) (kv : String × Package) (t : AList Package),
      (∀ m ∈ ms, m ≠ kv.1) →
      ms.foldl popA (kv :: t) = kv :: ms.foldl popA t := by
  intro ms
  induction ms with
  | nil => intro kv t _; rfl
  | cons m rest ih =>
    intro kv t h
    have hm : kv.1 ≠ m := fun he => h m (List.mem_cons_self m rest) he.symm
    have hstep : popA (kv :: t) m = kv :: popA t m := by
      rw [popA, if_neg hm]
    rw [List.foldl_cons, hstep, List.foldl_cons]
    exact ih kv (popA t m) (fun x hx => h x (List.mem_cons_of_mem m hx))

theorem foldl_popA_filter (deps : AList Package) :
    ∀ (hp : AList Package),
      (validateRemovedNames hp deps).foldl popA hp
        = hp.filter (fun kv => (lookupA kv.1 deps).isSome) := by
  intro hp
  induction hp with
  | nil => rfl
  | cons kv t ih =>
    cases hk : lookupA kv.1 deps with
    | none =>
      have hr : validateRemovedNames (kv :: t) deps = kv.1 :: validateRemovedNames t deps := by
        simp [validateRemovedNames, hk]
      have hstep : popA (kv :: t) kv.1 = t := by
        simp [popA]
      rw [hr, List.foldl_cons, hstep, ih]
      simp [List.filter_cons, hk]
    | some q =>
      have hr : validateRemovedNames (kv :: t) deps = validateRemovedNames t deps := by
        simp [validateRemovedNames, hk]
      have hne : ∀ m ∈ validateRemovedNames t deps, m ≠ kv.1 := by
        intro m hm he
        have hnone : (lookupA m deps).isNone = true := by
          simp only [validateRemovedNames, List.mem_filter] at hm
          exact hm.2
        rw [he, hk] at hnone
        simp at hnone
      rw [hr, foldl_popA_of_ne (validateRemovedNames t deps) kv t hne, ih]
      simp [List.filter_cons, hk]

/-- C8: after a validation pass, every history package absent from the live
dependency snapshot is handled in exactly one of two ways: if some such
package was among the just-performed operation's packages an install error
is raised; otherwise every such package is warned about (in order) and
removed from the history's packages, without an error. -/
theorem claim_c8_validate_packages (historyPackages dependencies : AList Package)
    (installedPackages : Option (List Package)) :
    ((∀ n ∈ validateRemovedNames historyPackages dependencies,
        (installedNamesOf installedPackages).contains n = false) →
      validatePackages historyPackages dependencies installedPackages
        = Except.ok
            (historyPackages.filter (fun kv => (lookupA kv.1 dependencies).isSome),
              validateRemovedNames historyPackages dependencies))
    ∧ ((∃ n ∈ validateRemovedNames historyPackages dependencies,
        (installedNamesOf installedPackages).contains n = true) →
      ∃ e, validatePackages historyPackages dependencies installedPackages
        = Except.error e) := by
  constructor
  · intro h
    rw [validatePackages,
      processRemoved_ok (installedNamesOf installedPackages)
        (validateRemovedNames historyPackages dependencies) historyPackages [] h,
      foldl_popA_filter dependencies historyPackages]
    simp
  · intro h
    exact processRemoved_error (installedNamesOf installedPackages)
      (validateRemovedNames historyPackages dependencies) historyPackages [] h

/-- Witness for C8: package `a` was transitively dropped (not part of the
operation), so it is demoted with a warning; package `b` survives. -/
theorem claim_c8_witness :
    validatePackages
        [("a", Package.mk "a" "a" none none), ("b", Package.mk "b" "b" none none)]
        [("b", Package.mk "b" "b" none none)] (some [])
      = Except.ok ([("b", Package.mk "b" "b" none none)], ["a"]) := by
  have h := (claim_c8_validate_packages
    [("a", Package.mk "a" "a" none none), ("b", Package.mk "b" "b" none none)]
    [("b", Package.mk "b" "b" none none)] (some [])).1 (by decide)
  rw [h]
  decide

/-! ## Equality of histories never inspects the diffs -/

/-- A dictionary's keys are unique (always true of a Python dict). -/
def nodupKeys {α : Type} (d : AList α) : Prop := (d.map Prod.fst).Nodup

/-- Unique keys at both levels of a `PackageRevision`. -/
def nodupKeysPR (pr : PackageRevision) : Prop :=
  nodupKeys pr ∧ ∀ e ∈ pr, nodupKeys e.2

instance {α : Type} (d : AList α) : Decidable (nodupKeys d) := by
  unfold nodupKeys
  infer_instance

instance (pr : PackageRevision) : Decidable (nodupKeysPR pr) := by
  unfold nodupKeysPR
  infer_instance

theorem pkgEq_refl (p : Package) : pkgEq p p = true := by
  simp [pkgEq]

theorem lookupA_mem_nodup {α : Type} :
    ∀ {d : AList α}, nodupKeys d → ∀ {kv : String × α}, kv ∈ d →
      lookupA kv.1 d = some kv.2 := by
  intro d
  induction d with
  | nil => intro _ kv hm; simp at hm
  | cons e rest ih =>
    intro hnd kv hm
    rcases List.mem_cons.mp hm with rfl | hm2
    · simp [lookupA]
    · have hne : e.1 ≠ kv.1 := by
        intro he
        have : kv.1 ∈ rest.map Prod.fst := List.mem_map_of_mem Prod.fst hm2
        rw [← he] at this
        exact (List.nodup_cons.mp hnd).1 this
      rw [lookupA, if_neg hne]
      exact ih (List.nodup_cons.mp hnd).2 hm2

theorem dictEqBy_refl {α : Type} (veq : α → α → Bool) :
    ∀ (d : AList α), nodupKeys d → (∀ kv ∈ d, veq kv.2 kv.2 = true) →
      dictEqBy veq d d = true := by
  intro d hnd h
  rw [dictEqBy, Bool.and_eq_true]
  refine ⟨by simp, ?_⟩
  rw [List.all_eq_true]
  intro kv hm
  rw [lookupA_mem_nodup hnd hm]
  exact h kv hm

theorem listEqBy_refl {α : Type} (eq : α → α → Bool) :
    ∀ (l : List α), (∀ x ∈ l, eq x x = true) → listEqBy eq l l = true := by
  intro l
  induction l with
  | nil => intro _; rfl
  | cons x rest ih =>
    intro h
    rw [listEqBy, Bool.and_eq_true]
    exact ⟨h x (List.mem_cons_self x rest),
      ih (fun y hy => h y (List.mem_cons_of_mem x hy))⟩

theorem prEq_refl (pr : PackageRevision) (h : nodupKeysPR pr) : prEq pr pr = true := by
  refine dictEqBy_refl (dictEqBy pkgEq) pr h.1 ?_
  intro kv hm
  exact dictEqBy_refl pkgEq kv.2 (h.2 kv hm) (fun kv2 _ => pkgEq_refl kv2.2)

theorem debugEq_refl (de : DebugEntry) (h : nodupKeys de) : debugEq de de = true := by
  refine dictEqBy_refl (fun a b => a == b) de h ?_
  intro kv _
  simp

/-- C10: `History`/`Revisions` equality never inspects the diffs sequence:
two histories that agree on name, id, channels, current packages, logs,
actions, revision package snapshots and debug entries but carry arbitrary
different diffs compare equal, and consequently the push no-op check
(remote equals local) is insensitive to diff contents. -/
theorem claim_c10_diffs_ignored (name id : String) (channels : List String)
    (pkgs : PackageRevision) (logs actions : List String)
    (rpkgs : List PackageRevision) (debug : List DebugEntry) (d1 d2 : List DiffT)
    (hp : nodupKeysPR pkgs) (hr : ∀ pr ∈ rpkgs, nodupKeysPR pr)
    (hd : ∀ de ∈ debug, nodupKeys de) :
    histEq (History.mk name id channels pkgs (Revisions.mk logs actions rpkgs d1 debug))
        (History.mk name id channels pkgs (Revisions.mk logs actions rpkgs d2 debug))
      = true
    ∧ pushDecision
        (some (History.mk name id channels pkgs (Revisions.mk logs actions rpkgs d1 debug)))
        (History.mk name id channels pkgs (Revisions.mk logs actions rpkgs d2 debug))
      = Except.ok PushOutcome.noop := by
  have heq : histEq
      (History.mk name id channels pkgs (Revisions.mk logs actions rpkgs d1 debug))
      (History.mk name id channels pkgs (Revisions.mk logs actions rpkgs d2 debug))
      = true := by
    rw [histEq]
    simp only [revEq]
    rw [prEq_refl pkgs hp, listEqBy_refl prEq rpkgs (fun pr hpr => prEq_refl pr (hr pr hpr)),
      listEqBy_refl debugEq debug (fun de hde => debugEq_refl de (hd de hde))]
    simp
  refine ⟨heq, ?_⟩
  simp [pushDecision, heq]

/-- Witness for C10: concrete histories differing only in their diffs. -/
theorem claim_c10_witness :
    histEq
        (History.mk "n" "i" ["main"] [("conda", [("pytest", fromSpec "pytest")])]
          (Revisions.mk ["l"] ["a"] [[("conda", [("pytest", fromSpec "pytest")])]]
            [[("conda", [("upsert", [("pytest", fromSpec "pytest")])])]]
            [[("platform", "linux")]]))
        (History.mk "n" "i" ["main"] [("conda", [("pytest", fromSpec "pytest")])]
          (Revisions.mk ["l"] ["a"] [[("conda", [("pytest", fromSpec "pytest")])]]
            [[]] [[("platform", "linux")]]))
      = true :=
  (claim_c10_diffs_ignored "n" "i" ["main"] [("conda", [("pytest", fromSpec "pytest")])]
    ["l"] ["a"] [[("conda", [("pytest", fromSpec "pytest")])]] [[("platform", "linux")]]
    [[("conda", [("upsert", [("pytest", fromSpec "pytest")])])]] [[]]
    (by decide) (by decide) (by decide)).1

/-! ## The history file round trip -/

/-- `s` has no comparison-operator characters, so `separate_spec` leaves it
whole. -/
def noOpChars (s : String) : Bool := s.toList.all (fun c => !(isOpChar c))

/-- Well-formed per-source package map: nonempty (else export drops the
source), unique keys, every entry keyed by its package's name, names free
of comparison-operator characters, and a spec equal to `"*"` only for the
package named `"*"` (else parse would misread the exported spec). -/
def wfSourceMap (m : AList Package) : Prop :=
  m ≠ [] ∧ nodupKeys m
    ∧ ∀ kv ∈ m, kv.1 = kv.2.name ∧ noOpChars kv.2.name = true
      ∧ (kv.2.spec = "*" → kv.2.name = "*")

/-- Well-formed `PackageRevision`: unique sources, each well formed. -/
def wfPR (pr : PackageRevision) : Prop :=
  nodupKeys pr ∧ ∀ e ∈ pr, wfSourceMap e.2

/-- Well-formed `Revisions`: the five parallel arrays have equal length,
every revision's package snapshot is well formed and debug keys are
unique. -/
def wfRevisions (r : Revisions) : Prop :=
  r.logs.length = r.actions.length ∧ r.actions.length = r.packages.length
    ∧ r.packages.length = r.diffs.length ∧ r.diffs.length = r.debug.length
    ∧ (∀ pr ∈ r.packages, wfPR pr) ∧ ∀ de ∈ r.debug, nodupKeys de

/-- Well-formed `History`. -/
def wfHistory (h : History) : Prop :=
  wfPR h.packages ∧ wfRevisions h.revisions

theorem upsertA_not_mem {α : Type} {k : String} :
    ∀ {d : AList α}, lookupA k d = none → ∀ (v : α), upsertA d k v = d ++ [(k, v)] := by
  intro d
  induction d with
  | nil => intro _ v; rfl
  | cons kv rest ih =>
    intro h v
    rw [lookupA] at h
    by_cases he : kv.1 = k
    · rw [if_pos he] at h; exact absurd h (by simp)
    · rw [if_neg he] at h
      rw [upsertA, if_neg he, ih h v]
      rfl

theorem lookupA_append {α : Type} (k : String) :
    ∀ (d1 d2 : AList α), lookupA k (d1 ++ d2)
      = (match lookupA k d1 with
        | some v => some v
        | none => lookupA k d2) := by
  intro d1
  induction d1 with
  | nil => intro d2; rfl
  | cons kv rest ih =>
    intro d2
    by_cases he : kv.1 = k
    · simp [lookupA, if_pos he]
    · simp only [List.cons_append, lookupA, if_neg he]
      exact ih d2

theorem lookupA_eq_none {α : Type} {k : String} :
    ∀ {d : AList α}, (∀ kv ∈ d, kv.1 ≠ k) → lookupA k d = none := by
  intro d
  induction d with
  | nil => intro _; rfl
  | cons kv rest ih =>
    intro h
    rw [lookupA, if_neg (h kv (List.mem_cons_self kv rest))]
    exact ih (fun kv2 h2 => h kv2 (List.mem_cons_of_mem kv h2))

/-- The shape of one source entry of `PackageRevision.export`. -/
def prExportEntry (e : String × AList Package) : String × AList String :=
  (e.1, e.2.map (fun ni => (ni.1, if specIsName ni.2 then "*" else ni.2.spec)))

theorem prExportAux_eq :
    ∀ (pr : PackageRevision) (acc : AList (AList String)),
      nodupKeys pr → (∀ e ∈ pr, e.2 ≠ []) → (∀ e ∈ pr, lookupA e.1 acc = none) →
      prExportAux acc pr = acc ++ pr.map prExportEntry := by
  intro pr
  induction pr with
  | nil => intro acc _ _ _; simp [prExportAux]
  | cons e rest ih =>
    intro acc hnd hne hfresh
    have hne2 : e.2 ≠ [] := hne e (List.mem_cons_self e rest)
    have hmap :
        (e.2.map (fun ni => (ni.1, if specIsName ni.2 then "*" else ni.2.spec))).isEmpty
          = false := by
      cases h2 : e.2 with
      | nil => exact absurd h2 hne2
      | cons x xs => simp [h2]
    have hnd2 : nodupKeys rest := by
      unfold nodupKeys at hnd ⊢
      simp only [List.map_cons] at hnd
      exact (List.nodup_cons.mp hnd).2
    have hkey : e.1 ∉ rest.map Prod.fst := by
      unfold nodupKeys at hnd
      simp only [List.map_cons] at hnd
      exact (List.nodup_cons.mp hnd).1
    have hfresh2 : ∀ x ∈ rest, lookupA x.1 (acc ++ [prExportEntry e]) = none := by
      intro x hx
      rw [lookupA_append, hfresh x (List.mem_cons_of_mem e hx)]
      have hxk : e.1 ≠ x.1 := fun hek => hkey (hek ▸ List.mem_map_of_mem Prod.fst hx)
      simp [lookupA, prExportEntry, hxk]
    rw [prExportAux]
    simp only [hmap, Bool.false_eq_true, if_false]
    rw [upsertA_not_mem (hfresh e (List.mem_cons_self e rest)) _]
    have hpe : (e.1, e.2.map (fun ni => (ni.1, if specIsName ni.2 then "*" else ni.2.spec)))
        = prExportEntry e := rfl
    rw [hpe,
      ih (acc ++ [prExportEntry e]) hnd2 (fun x hx => hne x (List.mem_cons_of_mem e hx))
        hfresh2]
    simp [prExportEntry]

/-- `PackageRevision.export` of a well-formed map is the entrywise export. -/
theorem prExport_eq (pr : PackageRevision) (hnd : nodupKeys pr)
    (hne : ∀ e ∈ pr, e.2 ≠ []) :
    prExport pr = pr.map prExportEntry := by
  rw [prExport, prExportAux_eq pr [] hnd hne (fun e _ => rfl)]
  rfl

theorem takeUntilOp_no_op :
    ∀ (cs : List Char), (∀ c ∈ cs, isOpChar c = false) → takeUntilOp cs = (cs, []) := by
  intro cs
  induction cs with
  | nil => intro _; rfl
  | cons c rest ih =>
    intro h
    rw [takeUntilOp]
    rw [h c (List.mem_cons_self c rest)]
    simp only [Bool.false_eq_true, if_false]
    rw [ih (fun x hx => h x (List.mem_cons_of_mem c hx))]

theorem separateSpec_no_op (s : String) (h : noOpChars s = true) : separateSpec s = [s] := by
  have hall : ∀ c ∈ s.toList, isOpChar c = false := by
    intro c hc
    have := List.all_eq_true.mp h c hc
    simpa using this
  rw [separateSpec, takeUntilOp_no_op s.toList hall]
  rfl

theorem fromSpec_no_op (s : String) (h : noOpChars s = true) :
    fromSpec s = Package.mk s s none none := by
  rw [fromSpec, separateSpec_no_op s h]
  rfl

/-- The parsed package of one exported package entry. -/
def prRoundPkg (p : Package) : Package :=
  if specIsName p then fromSpec p.name else Package.mk p.name p.spec none none

/-- The shape of one source entry of `PackageRevision.parse`. -/
def prParseEntry (e : String × AList String) : String × AList Package :=
  (e.1,
    (e.2.map (fun ns =>
      if ns.2 == "*" then fromSpec ns.1 else Package.mk ns.1 ns.2 none none)).map
      (fun p => (p.name, p)))

theorem updatePackagesInner_fresh :
    ∀ (ps : List Package) (acc : AList Package),
      (∀ p ∈ ps, lookupA p.name acc = none) → (ps.map (fun p => p.name)).Nodup →
      updatePackagesInner acc ps = acc ++ ps.map (fun p => (p.name, p)) := by
  intro ps
  induction ps with
  | nil => intro acc _ _; simp [updatePackagesInner]
  | cons p rest ih =>
    intro acc hfresh hnd
    have hnames : p.name ∉ rest.map (fun q => q.name) := by
      simp only [List.map_cons] at hnd
      exact (List.nodup_cons.mp hnd).1
    have hfresh2 : ∀ q ∈ rest, lookupA q.name (acc ++ [(p.name, p)]) = none := by
      intro q hq
      rw [lookupA_append, hfresh q (List.mem_cons_of_mem p hq)]
      have hpq : p.name ≠ q.name := by
        intro he
        exact hnames (he ▸ List.mem_map_of_mem (fun r => r.name) hq)
      simp [lookupA, hpq]
    have hndr : (rest.map (fun q => q.name)).Nodup := by
      simp only [List.map_cons] at hnd
      exact (List.nodup_cons.mp hnd).2
    rw [updatePackagesInner, upsertA_not_mem (hfresh p (List.mem_cons_self p rest)) p,
      ih (acc ++ [(p.name, p)]) hfresh2 hndr]
    simp

theorem prParseAux_eq :
    ∀ (doc : AList (AList String)) (acc : PackageRevision),
      nodupKeys doc → (∀ e ∈ doc, lookupA e.1 acc = none) →
      (∀ e ∈ doc,
        ((e.2.map (fun ns =>
          if ns.2 == "*" then fromSpec ns.1 else Package.mk ns.1 ns.2 none none)).map
          (fun p => p.name)).Nodup) →
      prParseAux acc doc = acc ++ doc.map prParseEntry := by
  intro doc
  induction doc with
  | nil => intro acc _ _ _; simp [prParseAux]
  | cons e rest ih =>
    intro acc hnd hfresh hinner
    have hnd2 : nodupKeys rest := by
      unfold nodupKeys at hnd ⊢
      simp only [List.map_cons] at hnd
      exact (List.nodup_cons.mp hnd).2
    have hkey : e.1 ∉ rest.map Prod.fst := by
      unfold nodupKeys at hnd
      simp only [List.map_cons] at hnd
      exact (List.nodup_cons.mp hnd).1
    have hup : updatePackages acc
        (e.2.map (fun ns =>
          if ns.2 == "*" then fromSpec ns.1 else Package.mk ns.1 ns.2 none none)) e.1
        = acc ++ [prParseEntry e] := by
      rw [updatePackages, hfresh e (List.mem_cons_self e rest)]
      simp only [Option.getD_none]
      rw [updatePackagesInner_fresh _ [] (fun p _ => rfl)
        (hinner e (List.mem_cons_self e rest))]
      rw [upsertA_not_mem (hfresh e (List.mem_cons_self e rest))]
      rfl
    have hfresh2 : ∀ x ∈ rest, lookupA x.1 (acc ++ [prParseEntry e]) = none := by
      intro x hx
      rw [lookupA_append, hfresh x (List.mem_cons_of_mem e hx)]
      have hxk : e.1 ≠ x.1 := fun hek => hkey (hek ▸ List.mem_map_of_mem Prod.fst hx)
      simp [lookupA, prParseEntry, hxk]
    rw [prParseAux, hup,
      ih (acc ++ [prParseEntry e]) hnd2 hfresh2
        (fun x hx => hinner x (List.mem_cons_of_mem e hx))]
    simp

theorem prParseEntry_export (e : String × AList Package) (hwf : wfSourceMap e.2) :
    prParseEntry (prExportEntry e) = (e.1, e.2.map (fun ni => (ni.1, prRoundPkg ni.2))) := by
  obtain ⟨-, -, hent⟩ := hwf
  rw [prParseEntry, prExportEntry]
  simp only [List.map_map]
  congr 1
  refine List.map_congr_left ?_
  intro ni hni
  obtain ⟨hkey, hname, hstar⟩ := hent ni hni
  simp only [Function.comp_apply]
  by_cases hs : specIsName ni.2 = true
  · rw [if_pos hs, if_pos (by rfl : (("*" : String) == "*") = true)]
    have hpkg : fromSpec ni.1 = Package.mk ni.1 ni.1 none none := by
      rw [hkey]
      exact fromSpec_no_op ni.2.name hname
    have hrp : prRoundPkg ni.2 = Package.mk ni.1 ni.1 none none := by
      rw [prRoundPkg, if_pos hs, ← hkey]
      exact hpkg
    rw [hpkg, hrp]
  · have hs2 : specIsName ni.2 = false := by
      cases h2 : specIsName ni.2
      · rfl
      · exact absurd h2 hs
    have hspec : ¬(ni.2.spec == "*") = true := by
      intro habs
      have hspecstar : ni.2.spec = "*" := by simpa using habs
      have hnamestar : ni.2.name = "*" := hstar hspecstar
      rw [specIsName, hspecstar, hnamestar] at hs2
      simp at hs2
    rw [if_neg hs, if_neg hspec]
    have hrp : prRoundPkg ni.2 = Package.mk ni.1 ni.2.spec none none := by
      rw [prRoundPkg, if_neg hs, ← hkey]
    rw [hrp]

theorem prParse_prExport (pr : PackageRevision) (hwf : wfPR pr) :
    prParse (prExport pr)
      = pr.map (fun e => (e.1, e.2.map (fun ni => (ni.1, prRoundPkg ni.2)))) := by
  obtain ⟨hnd, hmaps⟩ := hwf
  have hne : ∀ e ∈ pr, e.2 ≠ [] := fun e he => (hmaps e he).1
  rw [prExport_eq pr hnd hne, prParse]
  have hkeys : nodupKeys (pr.map prExportEntry) := by
    unfold nodupKeys at hnd ⊢
    simpa [prExportEntry, List.map_map, Function.comp] using hnd
  have hinner : ∀ e ∈ pr.map prExportEntry,
      ((e.2.map (fun ns =>
        if ns.2 == "*" then fromSpec ns.1 else Package.mk ns.1 ns.2 none none)).map
        (fun p => p.name)).Nodup := by
    intro e he
    obtain ⟨x, hx, rfl⟩ := List.mem_map.mp he
    have hx2 := prParseEntry_export x (hmaps x hx)
    have hnames :
        (((prExportEntry x).2.map (fun ns =>
          if ns.2 == "*" then fromSpec ns.1 else Package.mk ns.1 ns.2 none none)).map
          (fun p => p.name))
          = (x.2.map (fun ni => (ni.1, prRoundPkg ni.2))).map Prod.fst := by
      have hz := congrArg (fun y => y.2.map Prod.fst) hx2
      simp only [prParseEntry, List.map_map] at hz
      simpa [List.map_map] using hz
    rw [hnames]
    have := (hmaps x hx).2.1
    unfold nodupKeys at this
    simpa [List.map_map, Function.comp] using this
  rw [prParseAux_eq (pr.map prExportEntry) [] hkeys (fun e _ => rfl) hinner]
  simp only [List.nil_append, List.map_map]
  refine List.map_congr_left ?_
  intro e he
  simp only [Function.comp]
  exact prParseEntry_export e (hmaps e he)

theorem dictEqBy_map {α : Type} (veq : α → α → Bool) (f : String × α → α) :
    ∀ (d : AList α), nodupKeys d → (∀ kv ∈ d, veq (f kv) kv.2 = true) →
      dictEqBy veq (d.map (fun kv => (kv.1, f kv))) d = true := by
  intro d hnd hv
  rw [dictEqBy, Bool.and_eq_true]
  refine ⟨by simp, ?_⟩
  rw [List.all_eq_true]
  intro kv2 hm
  obtain ⟨kv, hkv, rfl⟩ := List.mem_map.mp hm
  rw [lookupA_mem_nodup hnd hkv]
  exact hv kv hkv

theorem pkgEq_roundPkg (p : Package) (hname : noOpChars p.name = true) :
    pkgEq (prRoundPkg p) p = true := by
  by_cases hs : specIsName p = true
  · rw [prRoundPkg, if_pos hs, fromSpec_no_op p.name hname]
    have hspec : p.spec = p.name := by simpa [specIsName] using hs
    simp [pkgEq, truthyS, hspec]
  · rw [prRoundPkg, if_neg hs]
    simp [pkgEq, truthyS]

/-- Parsing the export of a well-formed `PackageRevision` yields an equal
dictionary (Python `==`). -/
theorem prEq_roundtrip (pr : PackageRevision) (hwf : wfPR pr) :
    prEq (prParse (prExport pr)) pr = true := by
  rw [prParse_prExport pr hwf, prEq]
  refine dictEqBy_map (dictEqBy pkgEq)
    (fun e => e.2.map (fun ni => (ni.1, prRoundPkg ni.2))) pr hwf.1 ?_
  intro e he
  obtain ⟨-, hnd, hent⟩ := hwf.2 e he
  refine dictEqBy_map pkgEq (fun ni => prRoundPkg ni.2) e.2 hnd ?_
  intro ni hni
  exact pkgEq_roundPkg ni.2 (hent ni hni).2.1

/-! ## The exported diff sections always parse -/

theorem separators_mem {source sep : String} (h : separators source = some sep) :
    sep = "=" ∨ sep = "==" := by
  rw [separators] at h
  by_cases h1 : source = "conda"
  · rw [if_pos h1] at h; exact Or.inl (Option.some.inj h).symm
  · rw [if_neg h1] at h
    by_cases h2 : source = "pip"
    · rw [if_pos h2] at h; exact Or.inr (Option.some.inj h).symm
    · rw [if_neg h2] at h
      by_cases h3 : source = "r"
      · rw [if_pos h3] at h; exact Or.inl (Option.some.inj h).symm
      · rw [if_neg h3] at h; exact absurd h (by simp)

theorem takeUntilOp_snd_ne_nil :
    ∀ (cs : List Char), (∃ c ∈ cs, isOpChar c = true) → (takeUntilOp cs).2 ≠ [] := by
  intro cs
  induction cs with
  | nil => intro h; simp at h
  | cons c rest ih =>
    intro h
    rw [takeUntilOp]
    by_cases hc : isOpChar c = true
    · rw [if_pos hc]; simp
    · rw [if_neg hc]
      simp only []
      rcases h with ⟨x, hx, hcx⟩
      rcases List.mem_cons.mp hx with rfl | hx2
      · exact absurd hcx hc
      · exact ih ⟨x, hx2, hcx⟩

theorem separateSpec_pair (s : String) (h : ∃ c ∈ s.toList, isOpChar c = true) :
    ∃ a b, separateSpec s = [a, b] := by
  rw [separateSpec]
  have hne := takeUntilOp_snd_ne_nil s.toList h
  rw [if_neg (by simpa [List.isEmpty_iff] using hne)]
  exact ⟨_, _, rfl⟩

theorem eq_mem_append_sep (name sep v : String) (hsep : sep = "=" ∨ sep = "==") :
    ∃ c ∈ (name ++ sep ++ v).toList, isOpChar c = true := by
  refine ⟨'=', ?_, by decide⟩
  have hmem : '=' ∈ sep.data := by
    rcases hsep with rfl | rfl <;> decide
  show '=' ∈ (name ++ sep ++ v).data
  rw [String.data_append, String.data_append]
  exact List.mem_append_left _ (List.mem_append_right _ hmem)

theorem createSpec_ignore_build {p : Package} {sep s : String}
    (h : createSpec p sep true = some s) :
    ∃ v, p.version = some v ∧ s = p.name ++ sep ++ v := by
  unfold createSpec at h
  simp only [Bool.not_true, Bool.false_and, Bool.false_eq_true, if_false] at h
  cases hv : p.version with
  | none => rw [hv] at h; exact absurd h (by simp)
  | some v =>
    rw [hv] at h
    exact ⟨v, rfl, (Option.some.inj h).symm⟩

theorem diffParseSpec_of_export {source sectionName : String} {p : Package} {n spec : String}
    (h : (if sectionName = "remove" || source = "r" then some n
      else match separators source with
        | none => none
        | some sep => createSpec p sep true) = some spec) :
    ∃ entry, diffParseSpec source sectionName spec = some entry := by
  by_cases hc : (sectionName = "remove" || source = "r") = true
  · rw [diffParseSpec, if_pos hc]
    exact ⟨_, rfl⟩
  · rw [if_neg hc] at h
    rw [diffParseSpec, if_neg hc]
    cases hsep : separators source with
    | none => rw [hsep] at h; exact absurd h (by simp)
    | some sep =>
      rw [hsep] at h
      obtain ⟨v, hv, hspec⟩ := createSpec_ignore_build h
      obtain ⟨a, b, hab⟩ := separateSpec_pair spec
        (hspec ▸ eq_mem_append_sep p.name sep v (separators_mem hsep))
      rw [hab]
      exact ⟨_, rfl⟩

theorem diffParseSpecs_of_export (source sectionName : String) :
    ∀ (pkgs : AList Package) (specs : List String),
      diffExportSectionSpecs source sectionName pkgs = some specs →
      ∃ entries, diffParseSpecs source sectionName specs = some entries := by
  intro pkgs
  induction pkgs with
  | nil =>
    intro specs h
    rw [diffExportSectionSpecs] at h
    rw [← Option.some.inj h]
    exact ⟨[], rfl⟩
  | cons np rest ih =>
    intro specs h
    rw [diffExportSectionSpecs] at h
    cases hs : (if sectionName = "remove" || source = "r" then some np.1
        else match separators source with
          | none => none
          | some sep => createSpec np.2 sep true) with
    | none => rw [hs] at h; exact absurd h (by simp)
    | some spec =>
      rw [hs] at h
      cases hrest : diffExportSectionSpecs source sectionName rest with
      | none => rw [hrest] at h; exact absurd h (by simp)
      | some specsRest =>
        rw [hrest] at h
        obtain ⟨entry, hentry⟩ := diffParseSpec_of_export hs
        obtain ⟨entries, hentries⟩ := ih specsRest hrest
        refine ⟨entry :: entries, ?_⟩
        rw [← Option.some.inj h, diffParseSpecs, hentry, hentries]

theorem diffParseSections_of_export (source : String) :
    ∀ (sections : AList (AList Package)) (doc : AList (List String)),
      diffExportSections source sections = some doc →
      ∃ parsed, diffParseSections source doc = some parsed := by
  intro sections
  induction sections with
  | nil =>
    intro doc h
    rw [diffExportSections] at h
    rw [← Option.some.inj h]
    exact ⟨[], rfl⟩
  | cons sec rest ih =>
    intro doc h
    rw [diffExportSections] at h
    cases hs : diffExportSectionSpecs source sec.1 sec.2 with
    | none => rw [hs] at h; exact absurd h (by simp)
    | some specs =>
      rw [hs] at h
      cases hrest : diffExportSections source rest with
      | none => rw [hrest] at h; exact absurd h (by simp)
      | some docRest =>
        rw [hrest] at h
        obtain ⟨entries, hentries⟩ := diffParseSpecs_of_export source sec.1 sec.2 specs hs
        obtain ⟨parsed, hparsed⟩ := ih docRest hrest
        refine ⟨(sec.1, entries) :: parsed, ?_⟩
        rw [← Option.some.inj h, diffParseSections, hentries, hparsed]

theorem diffParse_of_export :
    ∀ (d : DiffT) (e : AList (AList (List String))),
      diffExport d = some e → ∃ d2, diffParse e = some d2 := by
  intro d
  induction d with
  | nil =>
    intro e h
    rw [diffExport] at h
    rw [← Option.some.inj h]
    exact ⟨[], rfl⟩
  | cons entry rest ih =>
    intro e h
    rw [diffExport] at h
    cases hs : diffExportSections entry.1 entry.2 with
    | none => rw [hs] at h; exact absurd h (by simp)
    | some sections =>
      rw [hs] at h
      cases hrest : diffExport rest with
      | none => rw [hrest] at h; exact absurd h (by simp)
      | some eRest =>
        rw [hrest] at h
        obtain ⟨parsed, hparsed⟩ := diffParseSections_of_export entry.1 entry.2 sections hs
        obtain ⟨d2, hd2⟩ := ih eRest hrest
        refine ⟨(entry.1, parsed) :: d2, ?_⟩
        rw [← Option.some.inj h, diffParse, hparsed, hd2]

theorem revRows_roundtrip :
    ∀ (logs actions : List String) (pkgs : List PackageRevision) (diffs : List DiffT)
      (debug : List DebugEntry) (rows : List RevisionRow),
      logs.length = actions.length → actions.length = pkgs.length →
      pkgs.length = diffs.length → diffs.length = debug.length →
      revExportRows logs actions pkgs diffs debug = some rows →
      ∃ ds, revParseRows rows
        = some (logs, actions, pkgs.map (fun p => prParse (prExport p)), ds, debug) := by
  intro logs
  induction logs with
  | nil =>
    intro actions pkgs diffs debug rows h1 h2 h3 h4 hexp
    simp only [List.length_nil] at h1
    have ha : actions = [] := List.length_eq_zero.mp h1.symm
    subst ha
    simp only [List.length_nil] at h2
    have hp : pkgs = [] := List.length_eq_zero.mp h2.symm
    subst hp
    simp only [List.length_nil] at h3
    have hd : diffs = [] := List.length_eq_zero.mp h3.symm
    subst hd
    simp only [List.length_nil] at h4
    have hdb : debug = [] := List.length_eq_zero.mp h4.symm
    subst hdb
    have hr : ([] : List RevisionRow) = rows := Option.some.inj hexp
    subst hr
    exact ⟨[], rfl⟩
  | cons log logsRest ih =>
    intro actions pkgs diffs debug rows h1 h2 h3 h4 hexp
    cases actions with
    | nil => simp at h1
    | cons action actionsRest =>
      cases pkgs with
      | nil => simp at h2
      | cons pkg pkgsRest =>
        cases diffs with
        | nil => simp at h3
        | cons diff diffsRest =>
          cases debug with
          | nil => simp at h4
          | cons de debugRest =>
            rw [revExportRows] at hexp
            cases hde : diffExport diff with
            | none => rw [hde] at hexp; exact absurd hexp (by simp)
            | some diffDoc =>
              rw [hde] at hexp
              cases hrows : revExportRows logsRest actionsRest pkgsRest diffsRest debugRest
                with
              | none => rw [hrows] at hexp; exact absurd hexp (by simp)
              | some rowsRest =>
                rw [hrows] at hexp
                obtain ⟨ds, hds⟩ := ih actionsRest pkgsRest diffsRest debugRest rowsRest
                  (by simpa using h1) (by simpa using h2) (by simpa using h3)
                  (by simpa using h4) hrows
                obtain ⟨d2, hd2⟩ := diffParse_of_export diff diffDoc hde
                refine ⟨d2 :: ds, ?_⟩
                rw [← Option.some.inj hexp, revParseRows]
                dsimp only
                rw [hd2, hds]
                simp

theorem listEqBy_map {α : Type} (eq : α → α → Bool) (f : α → α) :
    ∀ (l : List α), (∀ x ∈ l, eq (f x) x = true) → listEqBy eq (l.map f) l = true := by
  intro l
  induction l with
  | nil => intro _; rfl
  | cons x rest ih =>
    intro h
    rw [List.map_cons, listEqBy, Bool.and_eq_true]
    exact ⟨h x (List.mem_cons_self x rest),
      ih (fun y hy => h y (List.mem_cons_of_mem x hy))⟩

instance (m : AList Package) : Decidable (wfSourceMap m) := by
  unfold wfSourceMap
  infer_instance

instance (pr : PackageRevision) : Decidable (wfPR pr) := by
  unfold wfPR
  infer_instance

instance (r : Revisions) : Decidable (wfRevisions r) := by
  unfold wfRevisions
  infer_instance

instance (h : History) : Decidable (wfHistory h) := by
  unfold wfHistory
  infer_instance

/-- A history with an empty `pip` source map in its current packages, as
arises when a user installs and then removes all pip packages. -/
def c6CounterHistory : History :=
  History.mk "n" "i" [] [("pip", [])] (Revisions.mk [] [] [] [] [])

/-- C6 counterexample: for the history whose current packages carry the
source `pip` bound to an empty map, `History.parse(h.export())` is not
equal to `h`: export drops the empty source, so the parsed history's
packages lack the `pip` key. -/
theorem claim_c6_counterexample :
    ((historyExport c6CounterHistory).bind historyParse).map
        (fun h2 => histEq h2 c6CounterHistory) = some false := by
  decide

/-- C6 (amended): for every well-formed history (equal-length parallel
revision arrays, nonempty per-source package maps whose keys are the
package names, names free of version-constraint characters, a spec `"*"`
only on a package named `"*"`, unique dictionary keys) whose export
succeeds, parsing the exported document reproduces an equal history:
`History.parse(h.export()) == h`. Histories with an empty per-source map
are excluded, as export omits such sources. -/
theorem claim_c6_roundtrip (h : History) (hwf : wfHistory h) (d : HistoryDoc)
    (hexp : historyExport h = some d) :
    (historyParse d).map (fun h2 => histEq h2 h) = some true := by
  obtain ⟨hwp, hlen1, hlen2, hlen3, hlen4, hwrev, hwdebug⟩ := hwf
  rw [historyExport] at hexp
  cases hrows : revExport h.revisions with
  | none => rw [hrows] at hexp; exact absurd hexp (by simp)
  | some rows =>
    rw [hrows] at hexp
    simp only [Option.map_some'] at hexp
    rw [revExport] at hrows
    obtain ⟨ds, hparse⟩ := revRows_roundtrip h.revisions.logs h.revisions.actions
      h.revisions.packages h.revisions.diffs h.revisions.debug rows
      hlen1 hlen2 hlen3 hlen4 hrows
    rw [← Option.some.inj hexp, historyParse]
    simp only []
    rw [revParse, hparse]
    simp only [Option.map_some']
    congr 1
    rw [histEq]
    simp only [revEq]
    rw [prEq_roundtrip h.packages hwp,
      listEqBy_map prEq (fun p => prParse (prExport p)) h.revisions.packages
        (fun p hp => prEq_roundtrip p (hwrev p hp)),
      listEqBy_refl debugEq h.revisions.debug
        (fun de hde => debugEq_refl de (hwdebug de hde))]
    simp

/-- A realistic well-formed one-revision history used as the round-trip
witness. -/
def c6WitnessHistory : History :=
  History.mk "test" "uuid-1" ["conda-forge", "main"]
    [("conda", [("pytest", Package.mk "pytest" "pytest" (some "4.0") (some "py36_0"))])]
    (Revisions.mk ["conda create --name test pytest"]
      ["conda create --name test pytest=4.0=py36_0"]
      [[("conda", [("pytest", Package.mk "pytest" "pytest" (some "4.0") (some "py36_0"))])]]
      [[("conda",
        [("upsert", [("pytest", Package.mk "pytest" "pytest" (some "4.0") (some "py36_0"))])])]]
      [[("platform", "linux"), ("conda_version", "4.5.11")]])

/-- Witness for the amended C6 at a concrete well-formed history. -/
theorem claim_c6_witness :
    ((historyExport c6WitnessHistory).bind historyParse).map
        (fun h2 => histEq h2 c6WitnessHistory) = some true := by
  cases hexp : historyExport c6WitnessHistory with
  | none => exact absurd hexp (by decide)
  | some d =>
    have h2 := claim_c6_roundtrip c6WitnessHistory (by decide) d hexp
    simpa [hexp] using h2

end CondaEnvTracker
